import Mathlib

/-!
# Verification of the `httpio` range-capable HTTP reader

Shallow embedding, in Lean 4, of the `ReadAtCloser` / `ReadCloser` core of
`github.com/dbyington/httpio` as vendored by `manifestgo` (`vendor/github.com/
dbyington/httpio/io.go`, the most-evolved version of the file).

Modelling conventions:

* Go byte slices become `List Nat` (each element a byte value).
* `int64` becomes `Int`; `uint` sizes become `Nat`.
* Go `error` values become `Option Err` (with `none` for `nil`), or
  `Except Err α` where a Go function's results are only meaningful on the
  non-error path.
* The HTTP transport (`http.Client`) is passed explicitly: a range `GET` is a
  function from the requested `Range: bytes=start-end` bounds to a `Response`
  (or a transport error).  A compliant range-capable origin server is modelled
  by `rangeResponse` below, following the HTTP wire contract (inclusive range
  end, body clipped at end of object, `206 Partial Content`).
* Cryptographic digests are modelled extensionally: a digest value is the pair
  of the selected algorithm and the exact byte sequence fed into it
  (`HashVal`).  Real hash functions are deterministic functions of those two
  components, so equality of the pairs is what digest equality means and the
  pairs record precisely which bytes were hashed.
* Goroutine side effects: `ReadAtCloser.HashURL` hands each chunk goroutine a
  copy of the receiver (`rac := *r` in the source), so the goroutines cannot
  write to the caller's struct; the per-chunk goroutine body is the pure
  function `hashChunkGo`.  The `wg.Wait()` join makes the overall result a
  function of the per-chunk results, which we collect in index order exactly
  as the `hashes`/`hashErrs` arrays do.
-/

/-- Byte values 0..255 carried in Go `[]byte` slices. -/
abbrev Byte := Nat

/-- The sentinel `error` values of the package (`errors.New` variables at the
top of `io.go`), together with `io.ErrUnexpectedEOF`, the `RequestError`
struct, a constructor for transport-level errors surfaced by the
`http.Client`, and the value produced by `fmt.Errorf("%s: %s", err, e)`
inside `checkErrSlice`. -/
inductive Err where
  | invalidURLHost
  | invalidURLScheme
  | readFailed
  | readFromSource
  | rangeReadNotSupported
  | rangeReadNotSatisfied
  | headerEtag
  | headerContentLength
  | unexpectedEOF
  | requestError (statusCode : Nat) (url : String)
  | wrapErr (inner : Err)
  | transport (msg : String)
  deriving DecidableEq, Repr

/-- Digest algorithms selectable through the `hashSize` switch:
`crypto/sha256` and `crypto/md5`. -/
inductive HashAlg where
  | sha256
  | md5
  deriving DecidableEq, Repr

/-- A digest value, modelled extensionally as the algorithm applied together
with the exact bytes that were fed to it (see the module docstring). -/
structure HashVal where
  alg : HashAlg
  input : List Byte
  deriving DecidableEq, Repr

/-- `sha256SumReader` feeds the whole reader into a fresh `sha256.New()`
digest (via `io.CopyBuffer`); on a byte-slice reader it cannot fail. -/
def sha256SumReader (r : List Byte) : HashVal := ⟨.sha256, r⟩

/-- `md5SumReader` feeds the whole reader into a fresh `md5.New()` digest. -/
def md5SumReader (r : List Byte) : HashVal := ⟨.md5, r⟩

/-- The `Options` struct: target URL and expected-header pins.  The
`http.Client` handle is not part of the pure state; the transport is passed
to each operation explicitly. -/
structure Options where
  url : String
  expectHeaders : List (String × String)
  deriving DecidableEq, Repr

/-- The `ReadAtCloser` struct: options, probe result (`contentLength`,
`etag`), and whether the `cancel` context-cancellation function has been set
(it is `nil` until the first `ReadAt`). -/
structure ReadAtCloser where
  options : Options
  contentLength : Int
  etag : String
  hasCancel : Bool
  deriving DecidableEq, Repr

/-- An HTTP response as observed by the reader: status code, the
`Content-Length` reported by the response, and the body bytes that
`ioutil.ReadAll` yields. -/
structure Response where
  statusCode : Nat
  contentLength : Int
  body : List Byte
  deriving DecidableEq, Repr

/-- A range transport: `client.Do` on a `GET` with header
`Range: bytes=<start>-<end>`, as a function of the two bounds. -/
abbrev RangeFetch := Int → Int → Except Err Response

/-- Compliant range-capable origin for a remote object: an HTTP range
`bytes=start-end` is inclusive of both bounds and clipped at the end of the
object, so the returned body is `object[start ..= min end (length-1)]`, the
status is `206 Partial Content`, and the response `Content-Length` is the
body length. -/
def rangeResponse (object : List Byte) (start endPos : Int) : Response :=
  let body := (object.take (endPos + 1).toNat).drop start.toNat
  { statusCode := 206, contentLength := (body.length : Int), body := body }

/-- A transport backed by a compliant range-capable server holding `object`. -/
def compliantFetch (object : List Byte) : RangeFetch :=
  fun start endPos => .ok (rangeResponse object start endPos)

/-- Go's `copy(dst, src)`: overwrite the first `min (length src) (length dst)`
elements of `dst` with those of `src`, keeping the tail of `dst`. -/
def goCopy (dst src : List Byte) : List Byte :=
  src.take dst.length ++ dst.drop (min src.length dst.length)

/-- Result of `ReadAtCloser.ReadAt`: the updated receiver (the method sets
`r.cancel`), the contents of the caller's buffer `b` after the call, and the
`(n, err)` return values. -/
structure ReadAtResult where
  rac : ReadAtCloser
  buf : List Byte
  n : Int
  err : Option Err
  deriving Repr

/-- `ReadAtCloser.ReadAt` (the evolved version of the file): compute
`end := start + int64(len(b))`, store a fresh cancelable context in
`r.cancel`, issue the ranged `GET`, require `206 Partial Content`, read the
whole body and `copy` it into `b`; if `r.contentLength < end` return
`int(res.ContentLength - start)` with `io.ErrUnexpectedEOF`, otherwise return
`min (int64(len(b))) res.ContentLength` with a `nil` error. -/
def ReadAtCloser.readAt (r : ReadAtCloser) (b : List Byte) (start : Int)
    (fetch : RangeFetch) : ReadAtResult :=
  let endPos := start + (b.length : Int)
  let r' := { r with hasCancel := true }
  match fetch start endPos with
  | .error e => ⟨r', b, 0, some e⟩
  | .ok res =>
    if res.statusCode ≠ 206 then ⟨r', b, 0, some .rangeReadNotSatisfied⟩
    else
      let bt := res.body
      let b' := goCopy b bt
      if r.contentLength < endPos then
        ⟨r', b', res.contentLength - start, some .unexpectedEOF⟩
      else
        let l := if (b.length : Int) > res.contentLength then res.contentLength
                 else (b.length : Int)
        ⟨r', b', l, none⟩

/-- `checkErrSlice` walks the per-chunk error slice accumulating `err`
(wrapping the first error it meets with `fmt.Errorf("%s: %s", err, e)` and
thereafter overwriting with the latest error), but its final statement is
`return nil`, so the accumulated value `_err` is discarded and the function
always reports no error. -/
def checkErrSlice (es : List (Option Err)) : Option Err :=
  let _err := es.foldl
    (fun err e =>
      match e with
      | none => err
      | some e' =>
        match err with
        | none => some (.wrapErr e')
        | some _ => some e')
    none
  none

/-- Outcome of one chunk goroutine of `ReadAtCloser.HashURL`: the value
written to `hashes[idx]` (if any) and the value written to `hashErrs[idx]`. -/
structure ChunkOutcome where
  hashv : Option HashVal
  err : Option Err
  deriving DecidableEq, Repr

/-- The body of the per-chunk goroutine in `ReadAtCloser.HashURL`: allocate
`b := make([]byte, size)`, call `rac.ReadAt(b, size*idx)` on the goroutine's
copy `rac` of the receiver; on an error other than `io.ErrUnexpectedEOF`
record it and stop; otherwise (including the tolerated
`io.ErrUnexpectedEOF`, which is still recorded in `hashErrs`) hash the whole
buffer `b[:]` with the selected `hasher`. -/
def hashChunkGo (rac : ReadAtCloser) (hasher : List Byte → HashVal)
    (size : Int) (idx : Int) (fetch : RangeFetch) : ChunkOutcome :=
  let b := List.replicate size.toNat 0
  let res := rac.readAt b (size * idx) fetch
  match res.err with
  | some e =>
    if e ≠ .unexpectedEOF then ⟨none, some e⟩
    else ⟨some (hasher res.buf), some e⟩
  | none => ⟨some (hasher res.buf), none⟩

/-- `int64(math.Ceil(float64 a / float64 b))` for the positive operands that
`HashURL` produces; exact integer ceiling division (the float computation is
exact for all magnitudes below `2^53`). -/
def ceilDivInt (a b : Int) : Int := (a + b - 1) / b

/-- The chunk-size adjustment at the top of `ReadAtCloser.HashURL`: a
`chunkSize <= 0` is replaced by the content length, and a `chunkSize`
exceeding the content length is reset to the content length. -/
def effChunkSize (contentLength chunkSize : Int) : Int :=
  let chunkSize := if chunkSize ≤ 0 then contentLength else chunkSize
  if chunkSize > contentLength then contentLength else chunkSize

/-- The chunk count computed by `ReadAtCloser.HashURL`: `1` when the
(adjusted) chunk size exceeds the content length, otherwise
`ceil(contentLength / chunkSize)`. -/
def numChunks (contentLength chunkSize : Int) : Int :=
  let chunkSize := if chunkSize ≤ 0 then contentLength else chunkSize
  if chunkSize > contentLength then 1
  else ceilDivInt contentLength chunkSize

/-- Result of `ReadAtCloser.HashURL`: the `hashes` slice (index-aligned with
the chunk plan; a slot is `none` when its goroutine recorded no hash) and the
returned error. -/
structure HashURLResult where
  hashes : List (Option HashVal)
  err : Option Err
  deriving DecidableEq, Repr

/-- `ReadAtCloser.HashURL(scheme, chunkSize)`: adjust the chunk size and
compute the chunk count, select the hasher by the scheme value
(`sha256.Size = 32` picks SHA-256, anything else picks MD5), run one
goroutine per chunk (each on a copy of the receiver), wait, and return the
index-ordered `hashes` together with `checkErrSlice` of the recorded
per-chunk errors. -/
def ReadAtCloser.hashURL (r : ReadAtCloser) (scheme : Nat) (chunkSize : Int)
    (fetch : RangeFetch) : HashURLResult :=
  let size := effChunkSize r.contentLength chunkSize
  let chunks := numChunks r.contentLength chunkSize
  let hasher := if scheme = 32 then sha256SumReader else md5SumReader
  let outcomes := (List.range chunks.toNat).map
    (fun i => hashChunkGo r hasher size (i : Int) fetch)
  { hashes := outcomes.map (·.hashv)
    err := checkErrSlice (outcomes.map (·.err)) }

/-- A whole-body transport call: `client.Get(url)` as its observed result. -/
abbrev GetFetch := Except Err Response

/-- `Options.hashURL(hashSize)`: `GET` the whole body, fail with a
`RequestError` outside the 200..399 status window, then hash the entire body
with SHA-256 when `hashSize == sha256.Size` and MD5 otherwise. -/
def Options.hashURL (o : Options) (hashSize : Nat) (get : GetFetch) :
    Except Err HashVal :=
  match get with
  | .error e => .error e
  | .ok res =>
    if res.statusCode < 200 ∨ res.statusCode > 399 then
      .error (.requestError res.statusCode o.url)
    else if hashSize = 32 then .ok (sha256SumReader res.body)
    else .ok (md5SumReader res.body)

/-- A compliant whole-body `GET` response for `object`: `200 OK` with the
full object as body. -/
def wholeBodyResponse (object : List Byte) : GetFetch :=
  .ok { statusCode := 200, contentLength := (object.length : Int), body := object }

/-- The scheme part of `url.Parse`: the text before a `"://"` separator
(simplified to the `scheme://authority/path` URL shape used here). -/
def findSchemeRest : List Char → Option (List Char × List Char)
  | [] => none
  | ':' :: '/' :: '/' :: rest => some ([], rest)
  | c :: rest =>
    match findSchemeRest rest with
    | some (sch, r) => some (c :: sch, r)
    | none => none

/-- `u.Scheme` of the parsed URL. -/
def urlScheme (s : String) : String :=
  match findSchemeRest s.toList with
  | some (sch, _) => String.mk sch
  | none => ""

/-- `u.Hostname()` of the parsed URL: the authority up to the first `/` or
`:` (port separator). -/
def urlHost (s : String) : String :=
  match findSchemeRest s.toList with
  | some (_, rest) => String.mk (rest.takeWhile (fun c => c ≠ '/' ∧ c ≠ ':'))
  | none => ""

/-- `Options.validateUrl`: parse the URL, fail with `ErrInvalidURLScheme` on
an empty scheme and `ErrInvalidURLHost` on an empty hostname. -/
def Options.validateUrl (o : Options) : Option Err :=
  if urlScheme o.url = "" then some .invalidURLScheme
  else if urlHost o.url = "" then some .invalidURLHost
  else none

/-- The `headerErrs` map: `"Etag" ↦ ErrHeaderEtag`,
`"Content-Length" ↦ ErrHeaderContentLength`; indexing the Go map with any
other key yields the zero value `nil`. -/
def headerErrsGo (k : String) : Option Err :=
  if k = "Etag" then some .headerEtag
  else if k = "Content-Length" then some .headerContentLength
  else none

/-- A HEAD response as observed through `http.Header.Get` (already
canonicalized, case-insensitive lookup) plus the reported content length. -/
structure HeadResponse where
  get : String → String
  contentLength : Int

/-- The `for k, v := range expectHeaders` loop of `Options.headURL`: on the
first pin whose sent value differs, stop with `headerErrs[k]` (which is
`none` for a key outside the map); `none` here means every pin matched. -/
def checkExpectHeaders (get : String → String) :
    List (String × String) → Option (Option Err)
  | [] => none
  | (k, v) :: rest =>
    if get k ≠ v then some (headerErrsGo k)
    else checkExpectHeaders get rest

/-- `strings.Trim(s, "\"")`: strip all leading and trailing quote runes. -/
def trimQuotes (s : String) : String :=
  String.mk (((s.toList.dropWhile (· = '"')).reverse.dropWhile (· = '"')).reverse)

/-- `Options.headURL`: issue the HEAD request; require
`Accept-Ranges: bytes`; compare each expected-header pin, returning
`(0, "", headerErrs[k])` on the first mismatch; on success return the content
length and the Etag with surrounding quotes stripped.  The triple mirrors the
Go `(int64, string, error)` results (note a mismatch on an unregistered
header name yields a `nil` error together with the zero values). -/
def Options.headURL (o : Options) (head : Except Err HeadResponse) :
    Int × String × Option Err :=
  match head with
  | .error e => (0, "", some e)
  | .ok h =>
    if h.get "accept-ranges" ≠ "bytes" then (0, "", some .rangeReadNotSupported)
    else
      match checkExpectHeaders h.get o.expectHeaders with
      | some errOpt => (0, "", errOpt)
      | none => (h.contentLength, trimQuotes (h.get "Etag"), none)

/-- `NewReadAtCloser`: apply the options, validate the URL, run the HEAD
probe, and construct the reader from the captured probe result (the `cancel`
function starts out `nil`). -/
def NewReadAtCloser (o : Options) (head : Except Err HeadResponse) :
    Except Err ReadAtCloser :=
  match o.validateUrl with
  | some e => .error e
  | none =>
    let (contentLength, etag, err) := o.headURL head
    match err with
    | some e => .error e
    | none =>
      .ok { options := o, contentLength := contentLength, etag := etag
            hasCancel := false }

/-- `ReadAtCloser.Close`: call the cancel function when set and release idle
connections; no struct field is written and the returned error is `nil`. -/
def ReadAtCloser.close (r : ReadAtCloser) : ReadAtCloser × Option Err :=
  (r, none)

/-- `ReadAtCloser.Length`: accessor for the probed content length. -/
def ReadAtCloser.Length (r : ReadAtCloser) : Int := r.contentLength

/-- `ReadAtCloser.Etag`: accessor for the probed (quote-stripped) Etag. -/
def ReadAtCloser.Etag (r : ReadAtCloser) : String := r.etag

/-- The object bytes that chunk `i` of a `HashURL` run actually obtains: the
chunk goroutine issues `ReadAt` at offset `size*i` with a buffer of `size`
bytes, the compliant origin answers the (inclusive-end, end-clipped) range
request `bytes=size*i-(size*i+size)`, and `copy` retains the first `size`
bytes of that body.  These are the object bytes the chunk covers. -/
def chunkBody (object : List Byte) (size : Int) (i : Nat) : List Byte :=
  (rangeResponse object (size * i) (size * i + size)).body.take size.toNat

/-- Observable network events of the chunk goroutines: task `i` starts its
HTTP request (`client.Do` entered) or finishes it. -/
inductive NetEvent where
  | start (task : Nat)
  | finish (task : Nat)
  deriving DecidableEq, Repr

/-- The event sequence of one chunk goroutine: the body of the goroutine in
`ReadAtCloser.HashURL` calls `rac.ReadAt`, whose single network call is
`client.Do`; there is no admission-gate acquisition before it and no release
after it (no gate exists in the code), so the task's network behaviour is
exactly one start followed by its finish. -/
def chunkTaskEvents (i : Nat) : List NetEvent := [.start i, .finish i]

/-- A complete schedule of `n` concurrently launched chunk goroutines: every
task's network call starts exactly once and finishes exactly once, and a call
cannot be observed finished before it started.  No other constraint applies:
the goroutines of `ReadAtCloser.HashURL` are launched in one loop before
`wg.Wait()` and acquire no slot of any kind first, so any interleaving
satisfying these conditions can occur. -/
def ValidTrace (n : Nat) (tr : List NetEvent) : Prop :=
  tr.length = 2 * n ∧
  (∀ i < n, tr.count (NetEvent.start i) = 1 ∧ tr.count (NetEvent.finish i) = 1) ∧
  (∀ i < n, ∀ m ≤ tr.length,
    NetEvent.finish i ∈ tr.take m → NetEvent.start i ∈ tr.take m)

instance (n : Nat) (tr : List NetEvent) : Decidable (ValidTrace n tr) := by
  unfold ValidTrace
  infer_instance

/-- Number of network calls in flight after a prefix of a schedule: started
calls minus finished calls. -/
def inFlight (tr : List NetEvent) : Int :=
  (tr.countP (fun e => match e with | .start _ => true | .finish _ => false) : Int) -
  (tr.countP (fun e => match e with | .finish _ => true | .start _ => false) : Int)

/-- The schedule in which every task enters its network call before any task
completes: all starts first, then all finishes. -/
def allStartsTrace (n : Nat) : List NetEvent :=
  (List.range n).map NetEvent.start ++ (List.range n).map NetEvent.finish

/-- The all-starts-first schedule of the five chunk tasks of a
`HashURL` run with five chunks. -/
def trFive : List NetEvent :=
  [.start 0, .start 1, .start 2, .start 3, .start 4,
   .finish 0, .finish 1, .finish 2, .finish 3, .finish 4]

/-- The operations available on a constructed `ReadAtCloser`, with the
transport each one would use. -/
inductive RacOp where
  | readAtOp (b : List Byte) (start : Int) (fetch : RangeFetch)
  | hashURLOp (scheme : Nat) (chunkSize : Int) (fetch : RangeFetch)
  | closeOp
  | lengthOp
  | etagOp

/-- State transition of one operation on the reader.  `ReadAt` is the only
method that writes to the receiver (it stores the fresh `cancel` function);
`HashURL` hands each goroutine a copy of the receiver (`rac := *r`) so the
caller's struct is untouched; `Close` and the accessors write nothing. -/
def applyOp (r : ReadAtCloser) : RacOp → ReadAtCloser
  | .readAtOp b start fetch => (r.readAt b start fetch).rac
  | .hashURLOp _ _ _ => r
  | .closeOp => (r.close).1
  | .lengthOp => r
  | .etagOp => r

/-- Example configuration used by the concrete evaluations below. -/
def oEx : Options := ⟨"http://example.com/pkg", []⟩

/-- Example reader whose HEAD probe reported content length 10. -/
def rEx10 : ReadAtCloser := ⟨oEx, 10, "", false⟩

/-- Example 10-byte remote object, all bytes equal to 1. -/
def obj10 : List Byte := List.replicate 10 1

/-- Example reader with content length 3 (sequential-equivalence witness). -/
def rEx3 : ReadAtCloser := ⟨oEx, 3, "", false⟩

/-- Example 3-byte remote object. -/
def obj3 : List Byte := [5, 6, 7]

/-- Example reader with content length 4 (scheme-selection witness). -/
def rEx4 : ReadAtCloser := ⟨oEx, 4, "", false⟩

/-- Example 4-byte remote object. -/
def obj4 : List Byte := [1, 2, 3, 4]

/-- Configuration pinning an expected header that is not in the
`headerErrs` map. -/
def oMismatch : Options := ⟨"http://example.com/pkg", [("X-Custom", "aaa")]⟩

/-- HEAD response whose `X-Custom` header differs from the pinned value. -/
def headMismatch : HeadResponse :=
  ⟨fun k => if k = "accept-ranges" then "bytes"
            else if k = "X-Custom" then "bbb" else "", 7⟩

/-- Configuration pinning an expected Etag of `"abc"`. -/
def oEtagPin : Options := ⟨"http://example.com/pkg", [("Etag", "abc")]⟩

/-- HEAD response of a server reporting Etag `"xyz"`. -/
def headXYZ : HeadResponse :=
  ⟨fun k => if k = "accept-ranges" then "bytes"
            else if k = "Etag" then "xyz" else "", 42⟩

/-- `checkErrSlice` literally ends in `return nil`: whatever the slice
contains, the reported error is `nil`. -/
theorem checkErrSlice_eq_none (es : List (Option Err)) : checkErrSlice es = none := rfl

/-- Ceiling division of a positive number by itself is 1 (the one-chunk
case `ceil(C/C)` of `HashURL`). -/
theorem ceilDivInt_self {C : Int} (hC : 0 < C) : ceilDivInt C C = 1 := by
  unfold ceilDivInt
  have h1 : C + C - 1 = (C - 1) + C * 1 := by ring
  rw [h1, Int.add_mul_ediv_left _ _ (by omega : C ≠ 0),
    Int.ediv_eq_zero_of_lt (by omega) (by omega)]
  norm_num

/-- A chunk goroutine only ever stores a digest produced by the selected
hasher. -/
theorem hashChunkGo_hashv (rac : ReadAtCloser) (hasher : List Byte → HashVal)
    (size idx : Int) (fetch : RangeFetch) (h : HashVal)
    (hh : (hashChunkGo rac hasher size idx fetch).hashv = some h) :
    ∃ bs, h = hasher bs := by
  unfold hashChunkGo at hh
  dsimp only at hh
  split at hh
  · split at hh
    · simp at hh
    · simp only at hh
      exact ⟨_, (Option.some.inj hh).symm⟩
  · simp only at hh
    exact ⟨_, (Option.some.inj hh).symm⟩

/-- For a nonnegative chunk size, the bytes chunk `i` obtains are exactly the
`size`-byte slice of the object starting at offset `size * i` (clipped at the
end of the object): the one extra byte the inclusive range end fetches is
discarded by `copy`. -/
theorem chunkBody_eq (object : List Byte) (n i : Nat) :
    chunkBody object (n : Int) i = (object.drop (n * i)).take n := by
  unfold chunkBody rangeResponse
  dsimp only
  have h1 : ((n:Int) * (i:Int) + (n:Int) + 1).toNat = n * i + n + 1 := by
    have : ((n * i + n + 1 : Nat) : Int) = (n:Int) * (i:Int) + (n:Int) + 1 := by push_cast; ring
    omega
  have h2 : ((n:Int) * (i:Int)).toNat = n * i := by
    have : ((n * i : Nat) : Int) = (n:Int) * (i:Int) := by push_cast; ring
    omega
  have h3 : ((n:Int)).toNat = n := Int.toNat_natCast n
  rw [h1, h2, h3, List.drop_take, List.take_take]
  have h4 : n * i + n + 1 - n * i = n + 1 := by omega
  have h5 : n ⊓ (n + 1) = n := by omega
  rw [h4, h5]

/-- Concatenating the `s`-byte slices of `l` taken at offsets `0, s, 2s, …`
over `k` chunks recovers `l` whenever `k` chunks suffice to cover it: the
slices tile `l` with no gap and no overlap. -/
theorem flatten_chunks (s : Nat) : ∀ (k : Nat) (l : List Byte), l.length ≤ s * k →
    ((List.range k).map (fun i => (l.drop (s * i)).take s)).flatten = l := by
  intro k
  induction k with
  | zero =>
    intro l hl
    simp only [Nat.mul_zero, Nat.le_zero, List.length_eq_zero] at hl
    simp [hl]
  | succ m ih =>
    intro l hl
    rw [List.range_succ_eq_map, List.map_cons, List.map_map, List.flatten_cons]
    have hmul : s * (m + 1) = s * m + s := by ring
    have htail : List.map ((fun i => (l.drop (s * i)).take s) ∘ Nat.succ) (List.range m)
        = List.map (fun i => ((l.drop s).drop (s * i)).take s) (List.range m) := by
      apply List.map_congr_left
      intro i _
      simp only [Function.comp_apply]
      rw [List.drop_drop]
      have : s * Nat.succ i = s + s * i := by
        have := Nat.mul_succ s i
        omega
      rw [this]
    rw [htail, ih (l.drop s) (by rw [List.length_drop]; omega)]
    simp only [Nat.mul_zero, List.drop_zero]
    exact List.take_append_drop s l

/-- Ceiling division by a positive divisor is characterized by the two
inequalities `S*(k-1) < C ≤ S*k`. -/
theorem ceilDivInt_bounds {C S : Int} (hC : 0 < C) (hS : 0 < S) :
    S * (ceilDivInt C S - 1) < C ∧ C ≤ S * ceilDivInt C S := by
  have hS0 : S ≠ 0 := ne_of_gt hS
  have hk : ceilDivInt C S = (C - 1) / S + 1 := by
    unfold ceilDivInt
    have h1 : C + S - 1 = (C - 1) + S * 1 := by ring
    rw [h1, Int.add_mul_ediv_left _ _ hS0]
  have hdm := Int.ediv_add_emod (C - 1) S
  have hm1 := Int.emod_lt_of_pos (C - 1) hS
  have hm0 := Int.emod_nonneg (C - 1) hS0
  constructor
  · rw [hk]
    have h2 : S * ((C - 1) / S + 1 - 1) = S * ((C - 1) / S) := by ring
    rw [h2]
    linarith
  · rw [hk]
    have h2 : S * ((C - 1) / S + 1) = S * ((C - 1) / S) + S := by ring
    rw [h2]
    linarith

/-- For a positive content length, the chunk count of `HashURL` is at least
one, the adjusted chunk size lies in `(0, C]`, and the count is the ceiling
of `C` over the adjusted size. -/
theorem chunkPlan_bounds {C S : Int} (hC : 0 < C) :
    1 ≤ numChunks C S ∧ 0 < effChunkSize C S ∧ effChunkSize C S ≤ C ∧
    effChunkSize C S * (numChunks C S - 1) < C ∧
    C ≤ effChunkSize C S * numChunks C S := by
  unfold effChunkSize numChunks
  by_cases h1 : S ≤ 0
  · simp only [if_pos h1, if_neg (lt_irrefl C), ceilDivInt_self hC]
    norm_num
    omega
  · by_cases h2 : S > C
    · simp only [if_neg h1, if_pos h2, if_neg (lt_irrefl C)]
      norm_num
      omega
    · simp only [if_neg h1, if_neg h2]
      have hS : 0 < S := by omega
      have hb := ceilDivInt_bounds hC hS
      have hk1 : 1 ≤ ceilDivInt C S := by
        by_contra hcon
        push_neg at hcon
        have hnp : S * ceilDivInt C S ≤ 0 :=
          mul_nonpos_of_nonneg_of_nonpos (le_of_lt hS) (by omega)
        linarith [hb.2]
      exact ⟨hk1, hS, by omega, hb.1, hb.2⟩

/-- In the genuinely chunked regime (`0 < S < C`), the chunk count computed
by `HashURL` equals the rational ceiling `⌈C/S⌉`. -/
theorem numChunks_eq_ceil {C S : Int} (hS : 0 < S) (hSC : S < C) :
    numChunks C S = ⌈(C : ℚ) / (S : ℚ)⌉ := by
  have hC : 0 < C := lt_trans hS hSC
  have hb := ceilDivInt_bounds hC hS
  have hnum : numChunks C S = ceilDivInt C S := by
    simp only [numChunks, if_neg (by omega : ¬ S ≤ 0), if_neg (by omega : ¬ S > C)]
  rw [hnum]
  symm
  rw [Int.ceil_eq_iff]
  have hSQ : (0:ℚ) < (S:ℚ) := by exact_mod_cast hS
  constructor
  · rw [lt_div_iff₀ hSQ]
    have hcast : ((S * (ceilDivInt C S - 1) : Int) : ℚ) < ((C : Int) : ℚ) := by
      exact_mod_cast hb.1
    push_cast at hcast
    linarith
  · rw [div_le_iff₀ hSQ]
    have hcast : ((C : Int) : ℚ) ≤ ((S * ceilDivInt C S : Int) : ℚ) := by
      exact_mod_cast hb.2
    push_cast at hcast
    linarith

/-- `NetEvent.start` is injective. -/
theorem start_injective : Function.Injective NetEvent.start := by
  intro a b h
  injection h

/-- `NetEvent.finish` is injective. -/
theorem finish_injective : Function.Injective NetEvent.finish := by
  intro a b h
  injection h

/-- The all-starts-first schedule is a valid complete schedule of `n`
ungated tasks. -/
theorem allStartsTrace_valid (n : Nat) : ValidTrace n (allStartsTrace n) := by
  refine ⟨?_, ?_, ?_⟩
  · simp [allStartsTrace]
    omega
  · intro i hi
    constructor
    · rw [allStartsTrace, List.count_append]
      have h1 : List.count (NetEvent.start i) ((List.range n).map NetEvent.start) = 1 := by
        rw [List.count_map_of_injective _ _ start_injective]
        exact List.count_eq_one_of_mem (List.nodup_range n) (List.mem_range.mpr hi)
      have h2 : List.count (NetEvent.start i) ((List.range n).map NetEvent.finish) = 0 := by
        rw [List.count_eq_zero]
        intro hmem
        obtain ⟨j, _, hj⟩ := List.mem_map.mp hmem
        exact absurd hj (by intro hh; injection hh)
      omega
    · rw [allStartsTrace, List.count_append]
      have h1 : List.count (NetEvent.finish i) ((List.range n).map NetEvent.start) = 0 := by
        rw [List.count_eq_zero]
        intro hmem
        obtain ⟨j, _, hj⟩ := List.mem_map.mp hmem
        exact absurd hj (by intro hh; injection hh)
      have h2 : List.count (NetEvent.finish i) ((List.range n).map NetEvent.finish) = 1 := by
        rw [List.count_map_of_injective _ _ finish_injective]
        exact List.count_eq_one_of_mem (List.nodup_range n) (List.mem_range.mpr hi)
      omega
  · intro i hi m _ hfin
    have hlenA : ((List.range n).map NetEvent.start).length = n := by simp
    by_cases hmn : m ≤ n
    · exfalso
      rw [allStartsTrace, List.take_append_eq_append_take, hlenA] at hfin
      have hz : m - n = 0 := by omega
      rw [hz, List.take_zero, List.append_nil] at hfin
      have := List.mem_of_mem_take hfin
      obtain ⟨j, _, hj⟩ := List.mem_map.mp this
      exact absurd hj (by intro hh; injection hh)
    · rw [allStartsTrace, List.take_append_eq_append_take, hlenA]
      apply List.mem_append_left
      have htk : List.take m ((List.range n).map NetEvent.start)
          = (List.range n).map NetEvent.start :=
        List.take_of_length_le (by omega)
      rw [htk]
      exact List.mem_map.mpr ⟨i, List.mem_range.mpr hi, rfl⟩

/-- After the first `n` events of the all-starts-first schedule, all `n`
network calls are in flight simultaneously. -/
theorem inFlight_allStarts (n : Nat) : inFlight ((allStartsTrace n).take n) = (n : Int) := by
  have htk : (allStartsTrace n).take n = (List.range n).map NetEvent.start := by
    rw [allStartsTrace, List.take_append_eq_append_take]
    have hlenA : ((List.range n).map NetEvent.start).length = n := by simp
    rw [hlenA]
    simp
  rw [htk]
  unfold inFlight
  rw [List.countP_map, List.countP_map]
  have h1 : (List.countP ((fun e => match e with | .start _ => true | .finish _ => false) ∘ NetEvent.start) (List.range n)) = n := by
    have : ((fun (e : NetEvent) => match e with | .start _ => true | .finish _ => false) ∘ NetEvent.start) = fun _ => true := rfl
    rw [this, List.countP_true]
    exact List.length_range n
  have h2 : (List.countP ((fun e => match e with | .finish _ => true | .start _ => false) ∘ NetEvent.start) (List.range n)) = 0 := by
    have : ((fun (e : NetEvent) => match e with | .finish _ => true | .start _ => false) ∘ NetEvent.start) = fun _ => false := rfl
    rw [this, List.countP_false]
    rfl
  rw [h1, h2]
  omega

/-- Whatever the outcome of the network call, `ReadAt` returns the receiver
with only the `cancel` slot written. -/
theorem readAt_rac (r : ReadAtCloser) (b : List Byte) (start : Int) (fetch : RangeFetch) :
    (r.readAt b start fetch).rac = { r with hasCancel := true } := by
  unfold ReadAtCloser.readAt
  dsimp only
  split
  · rfl
  · split
    · rfl
    · split <;> rfl

/-- No operation writes the probe result or the options. -/
theorem applyOp_frame (r : ReadAtCloser) (op : RacOp) :
    (applyOp r op).contentLength = r.contentLength ∧
    (applyOp r op).etag = r.etag ∧
    (applyOp r op).options = r.options := by
  cases op with
  | readAtOp b start fetch =>
    simp only [applyOp]
    rw [readAt_rac]
    exact ⟨rfl, rfl, rfl⟩
  | hashURLOp scheme chunkSize fetch => exact ⟨rfl, rfl, rfl⟩
  | closeOp => exact ⟨rfl, rfl, rfl⟩
  | lengthOp => exact ⟨rfl, rfl, rfl⟩
  | etagOp => exact ⟨rfl, rfl, rfl⟩

/-- Claim C1 (code_bug): a hard chunk failure does NOT make `HashURL` fail.
Against a transport answering `404` to every range request, both chunks of a
two-chunk `HashURL` run record the hard error `ErrRangeReadNotSatisfied` and
produce no digest, yet `checkErrSlice` (which ends in `return nil`) reports
no error, so the overall call returns a `nil` error — contradicting the claim
that the underlying chunk failure propagates. -/
theorem c1_hashURL_never_propagates_chunk_failure :
    checkErrSlice [some Err.rangeReadNotSatisfied] = none ∧
    (rEx10.hashURL 32 5 (fun _ _ => Except.ok ⟨404, 0, []⟩)).hashes = [none, none] ∧
    (rEx10.hashURL 32 5 (fun _ _ => Except.ok ⟨404, 0, []⟩)).err = none := by
  refine ⟨rfl, by decide, rfl⟩

/-- Claim C2 (code_bug): the final chunk's digest is computed over the whole
`chunkSize`-byte buffer, zero padding included, not over exactly the bytes
received.  With content length 10, chunk size 3, and an all-ones object, the
final chunk (index 3) receives the single byte `[1]` from its ranged read,
but its recorded digest was fed the 3-byte buffer `[1, 0, 0]`. -/
theorem c2_final_chunk_digest_zero_padded :
    (rangeResponse obj10 9 12).body = [1] ∧
    (rEx10.hashURL 16 3 (compliantFetch obj10)).hashes.getD 3 none =
      some ⟨HashAlg.md5, [1, 0, 0]⟩ ∧
    ([1, 0, 0] : List Byte) ≠ (rangeResponse obj10 9 12).body := by
  refine ⟨by decide, by decide, by decide⟩

/-- Claim C3 (code_bug): a truncated `ReadAt` does return the truncation
signal `io.ErrUnexpectedEOF`, but the count it returns is
`res.ContentLength - start` — the response body length minus the absolute
offset — not the number of valid bytes.  With content length 10, offset 9 and
a 3-byte buffer the valid prefix is 1 byte, yet the call returns `-8`. -/
theorem c3_truncated_readAt_returns_wrong_count :
    (rEx10.readAt (List.replicate 3 0) 9 (compliantFetch obj10)).err = some Err.unexpectedEOF ∧
    (rEx10.readAt (List.replicate 3 0) 9 (compliantFetch obj10)).n = -8 ∧
    rEx10.Length - 9 = 1 ∧ (-8 : Int) ≠ 1 := by
  refine ⟨by decide, by decide, by decide, by decide⟩

/-- Claim C4: for content length `C > 0` and configured chunk size `S`, the
chunk count is 1 when `S ≤ 0` or `S ≥ C` and `⌈C/S⌉` otherwise (equivalently,
it is the unique `k` with `S'*(k-1) < C ≤ S'*k` for the adjusted size `S'`);
every chunk before the last covers exactly `S'` object bytes, the last covers
exactly `C − S'×(count−1)`, and the per-chunk byte ranges tile the object
with no gaps or overlaps (their concatenation is the object, so the spans sum
to `C`). -/
theorem c4_chunk_plan (C S : Int) (object : List Byte) (hC : 0 < C)
    (hobj : (object.length : Int) = C) :
    1 ≤ numChunks C S ∧
    ((S ≤ 0 ∨ C ≤ S) → numChunks C S = 1) ∧
    (0 < S → S < C → numChunks C S = ⌈(C : ℚ) / (S : ℚ)⌉) ∧
    (∀ i : Nat, (i : Int) < numChunks C S - 1 →
      ((chunkBody object (effChunkSize C S) i).length : Int) = effChunkSize C S) ∧
    (((chunkBody object (effChunkSize C S) ((numChunks C S).toNat - 1)).length : Int)
      = C - effChunkSize C S * (numChunks C S - 1)) ∧
    ((List.range (numChunks C S).toNat).map
        (fun i => (chunkBody object (effChunkSize C S) i).length)).sum = C.toNat ∧
    ((List.range (numChunks C S).toNat).map (chunkBody object (effChunkSize C S))).flatten
      = object := by
  obtain ⟨hk1, hSpos, hSle, hlow, hhigh⟩ := chunkPlan_bounds (S := S) hC
  obtain ⟨s, hs⟩ : ∃ n : Nat, (n : Int) = effChunkSize C S :=
    ⟨_, Int.toNat_of_nonneg hSpos.le⟩
  obtain ⟨kn, hkn⟩ : ∃ n : Nat, (n : Int) = numChunks C S :=
    ⟨_, Int.toNat_of_nonneg (by omega)⟩
  have hkn' : (numChunks C S).toNat = kn := by omega
  have hkn1 : 1 ≤ kn := by omega
  have hp1 : ((s * kn : Nat) : Int) = effChunkSize C S * numChunks C S := by
    push_cast
    rw [hs, hkn]
  have hexp : s * kn = s * (kn - 1) + s := by
    have h9 : kn - 1 + 1 = kn := by omega
    calc s * kn = s * ((kn - 1) + 1) := by rw [h9]
    _ = s * (kn - 1) + s := by ring
  have hc1 : ((s * (kn - 1) : Nat) : Int) = effChunkSize C S * (numChunks C S - 1) := by
    push_cast [Nat.cast_sub hkn1]
    rw [hs, hkn]
  have h2 : (S ≤ 0 ∨ C ≤ S) → numChunks C S = 1 := by
    intro hca
    unfold numChunks
    by_cases ha : S ≤ 0
    · rw [if_pos ha, if_neg (lt_irrefl C)]
      exact ceilDivInt_self hC
    · have hcs : C ≤ S := by tauto
      rw [if_neg ha]
      by_cases hb2 : S > C
      · rw [if_pos hb2]
      · have hSeq : S = C := by omega
        rw [if_neg hb2, hSeq]
        exact ceilDivInt_self hC
  have hspan : ∀ i : Nat, (i : Int) < numChunks C S - 1 →
      ((chunkBody object (effChunkSize C S) i).length : Int) = effChunkSize C S := by
    intro i hi
    rw [← hs, chunkBody_eq, List.length_take, List.length_drop]
    have hsi : ((s * (i+1) : Nat) : Int) = effChunkSize C S * ((i:Int)+1) := by
      push_cast
      rw [hs]
    have hle2 : effChunkSize C S * ((i:Int)+1) ≤ effChunkSize C S * (numChunks C S - 1) :=
      mul_le_mul_of_nonneg_left (by omega) hSpos.le
    have hfit : (s * (i+1) : Nat) ≤ object.length := by omega
    have hexp2 : s * (i+1) = s * i + s := by ring
    have hmin : s ⊓ (object.length - s * i) = s := by omega
    rw [hmin, hs]
  have hlast : ((chunkBody object (effChunkSize C S) ((numChunks C S).toNat - 1)).length : Int)
      = C - effChunkSize C S * (numChunks C S - 1) := by
    rw [hkn', ← hs, chunkBody_eq, List.length_take, List.length_drop]
    have hc1' : ((s * (kn - 1) : Nat) : Int) = (s : Int) * (numChunks C S - 1) := by
      rw [hs]; exact hc1
    have hp1' : ((s * kn : Nat) : Int) = (s : Int) * numChunks C S := by
      rw [hs]; exact hp1
    have hhigh' : C ≤ (s:Int) * numChunks C S := by rw [hs]; exact hhigh
    have hlow' : (s:Int) * (numChunks C S - 1) < C := by rw [hs]; exact hlow
    omega
  have hflat : ((List.range (numChunks C S).toNat).map
      (chunkBody object (effChunkSize C S))).flatten = object := by
    rw [hkn', ← hs]
    have hcongr : List.map (chunkBody object ((s:Nat):Int)) (List.range kn)
        = List.map (fun i => (object.drop (s*i)).take s) (List.range kn) :=
      List.map_congr_left (fun i _ => chunkBody_eq object s i)
    rw [hcongr]
    exact flatten_chunks s kn object (by omega)
  have hsum : ((List.range (numChunks C S).toNat).map
      (fun i => (chunkBody object (effChunkSize C S) i).length)).sum = C.toNat := by
    have hlenf := congrArg List.length hflat
    rw [List.length_flatten, List.map_map] at hlenf
    have hobj' : object.length = C.toNat := by omega
    rw [← hobj']
    exact hlenf
  exact ⟨hk1, h2, fun hSp hSC => numChunks_eq_ceil hSp hSC, hspan, hlast, hsum, hflat⟩

/-- Claim C4 witness: the chunk plan at content length 10, chunk size 3
(four chunks covering 3+3+3+1 bytes). -/
theorem c4_chunk_plan_witness :
    (0 < (10:Int)) ∧ ((obj10.length : Int) = 10) ∧
    (1 ≤ numChunks 10 3 ∧
     (((3:Int) ≤ 0 ∨ (10:Int) ≤ 3) → numChunks 10 3 = 1) ∧
     (0 < (3:Int) → (3:Int) < 10 → numChunks 10 3 = ⌈(10 : ℚ) / ((3:Int) : ℚ)⌉) ∧
     (∀ i : Nat, (i : Int) < numChunks 10 3 - 1 →
       ((chunkBody obj10 (effChunkSize 10 3) i).length : Int) = effChunkSize 10 3) ∧
     (((chunkBody obj10 (effChunkSize 10 3) ((numChunks 10 3).toNat - 1)).length : Int)
       = 10 - effChunkSize 10 3 * (numChunks 10 3 - 1)) ∧
     ((List.range (numChunks 10 3).toNat).map
         (fun i => (chunkBody obj10 (effChunkSize 10 3) i).length)).sum = (10:Int).toNat ∧
     ((List.range (numChunks 10 3).toNat).map (chunkBody obj10 (effChunkSize 10 3))).flatten
       = obj10) :=
  ⟨by norm_num, by decide, c4_chunk_plan 10 3 obj10 (by norm_num) (by decide)⟩

/-- Claim C5: an in-bounds `ReadAt` against a compliant range-capable origin
returns exactly `len(buf)` bytes and no error, with the buffer holding bytes
`[offset, offset+len(buf))` of the remote object. -/
theorem c5_readAt_in_bounds (r : ReadAtCloser) (object b : List Byte) (start : Int)
    (hobj : (object.length : Int) = r.contentLength)
    (hstart : 0 ≤ start)
    (hbound : start + (b.length : Int) ≤ r.contentLength) :
    (r.readAt b start (compliantFetch object)).n = (b.length : Int) ∧
    (r.readAt b start (compliantFetch object)).err = none ∧
    (r.readAt b start (compliantFetch object)).buf =
      (object.drop start.toNat).take b.length := by
  have hnotlt : ¬ (r.contentLength < start + (b.length : Int)) := by omega
  have hbodyLen : (List.drop start.toNat (List.take ((start + (b.length:Int) + 1).toNat) object)).length
      = (b.length + 1) ⊓ (object.length - start.toNat) := by
    rw [List.length_drop, List.length_take]
    omega
  have hmin : (List.drop start.toNat (List.take ((start + (b.length:Int) + 1).toNat) object)).length ⊓ b.length
      = b.length := by
    rw [hbodyLen]; omega
  have hle' : b.length ≤ (List.drop start.toNat (List.take ((start + (b.length:Int) + 1).toNat) object)).length := by
    rw [hbodyLen]; omega
  have hle : ¬ ((b.length : Int) > ((List.drop start.toNat (List.take ((start + (b.length:Int) + 1).toNat) object)).length : Int)) :=
    not_lt.mpr (by exact_mod_cast hle')
  have hts : (start + (b.length:Int) + 1).toNat - start.toNat = b.length + 1 := by omega
  have hmm : b.length ⊓ (b.length + 1) = b.length := by omega
  have htake : List.take b.length (List.drop start.toNat (List.take ((start + (b.length:Int) + 1).toNat) object))
      = (object.drop start.toNat).take b.length := by
    rw [List.drop_take, hts, List.take_take, hmm]
  simp only [ReadAtCloser.readAt, compliantFetch, rangeResponse, goCopy]
  simp only [if_neg (show ¬ ((206:Nat) ≠ 206) by decide), if_neg hnotlt, hmin, htake,
    if_neg hle, List.drop_length, List.append_nil]
  exact ⟨trivial, trivial, trivial⟩

/-- Claim C5 witness: reading two bytes at offset 4 of the 10-byte object. -/
theorem c5_readAt_in_bounds_witness :
    ((obj10.length : Int) = rEx10.contentLength) ∧ ((0:Int) ≤ 4) ∧
    ((4:Int) + (([0, 0] : List Byte).length : Int) ≤ rEx10.contentLength) ∧
    ((rEx10.readAt [0, 0] 4 (compliantFetch obj10)).n = (([0, 0] : List Byte).length : Int) ∧
     (rEx10.readAt [0, 0] 4 (compliantFetch obj10)).err = none ∧
     (rEx10.readAt [0, 0] 4 (compliantFetch obj10)).buf =
       (obj10.drop (4:Int).toNat).take ([0, 0] : List Byte).length) :=
  ⟨by decide, by norm_num, by decide,
    c5_readAt_in_bounds rEx10 obj10 [0, 0] 4 (by decide) (by norm_num) (by decide)⟩

/-- Claim C6 counterexample: pinning an expected header whose name is not in
the `headerErrs` map (here `X-Custom`) and probing a server whose value
differs does NOT fail construction: `headURL` returns `headerErrs[k] = nil`
together with the zero values, so `NewReadAtCloser` succeeds and hands back a
reader whose probe fields are zeroed — no mismatch error identifying the
header is produced. -/
theorem c6_unknown_header_mismatch_not_fatal :
    headMismatch.get "X-Custom" ≠ "aaa" ∧
    NewReadAtCloser oMismatch (.ok headMismatch) =
      .ok { options := oMismatch, contentLength := 0, etag := "", hasCancel := false } := by
  exact ⟨by decide, by rfl⟩

/-- Claim C6 as amended: for a single expected-header pin whose sent value
differs, construction fails with the header-specific error exactly when the
header name is one of the two registered in `headerErrs` (`Etag`,
`Content-Length`); for any other header name the mismatch yields a `nil`
error and construction succeeds with zeroed probe fields. -/
theorem c6_supported_header_mismatch (o : Options) (h : HeadResponse) (k v : String)
    (hval : o.validateUrl = none)
    (hAR : h.get "accept-ranges" = "bytes")
    (hexp : o.expectHeaders = [(k, v)])
    (hne : h.get k ≠ v) :
    (k = "Etag" → NewReadAtCloser o (.ok h) = .error Err.headerEtag) ∧
    (k = "Content-Length" → NewReadAtCloser o (.ok h) = .error Err.headerContentLength) ∧
    (k ≠ "Etag" → k ≠ "Content-Length" →
      NewReadAtCloser o (.ok h) =
        .ok { options := o, contentLength := 0, etag := "", hasCancel := false }) := by
  have hAR' : ¬ (h.get "accept-ranges" ≠ "bytes") := by simp [hAR]
  have hhead : o.headURL (.ok h) = (0, "", headerErrsGo k) := by
    unfold Options.headURL
    rw [hexp]
    dsimp only
    rw [if_neg hAR']
    unfold checkExpectHeaders
    rw [if_pos hne]
  refine ⟨?_, ?_, ?_⟩
  · intro hk
    subst hk
    unfold NewReadAtCloser
    rw [hval, hhead]
    rfl
  · intro hk
    subst hk
    unfold NewReadAtCloser
    rw [hval, hhead]
    rfl
  · intro hk1 hk2
    unfold NewReadAtCloser
    rw [hval, hhead]
    unfold headerErrsGo
    rw [if_neg hk1, if_neg hk2]

/-- Claim C6 witness: an expected Etag of `"abc"` against a server reporting
`"xyz"` fails with the Etag-specific mismatch error. -/
theorem c6_supported_header_mismatch_witness :
    oEtagPin.validateUrl = none ∧ headXYZ.get "Etag" ≠ "abc" ∧
    NewReadAtCloser oEtagPin (.ok headXYZ) = .error Err.headerEtag :=
  ⟨by decide, by decide,
    (c6_supported_header_mismatch oEtagPin headXYZ "Etag" "abc" (by decide) (by decide) rfl
      (by decide)).1 rfl⟩

/-- Claim C7: with a non-positive chunk size and positive content length,
`HashURL` of a compliant origin yields exactly one digest, and that digest is
the one the whole-body sequential path (`Options.hashURL`, which feeds the
entire `GET` body to `sha256SumReader`/`md5SumReader`) produces under the
same scheme. -/
theorem c7_single_chunk_matches_sequential (r : ReadAtCloser) (object : List Byte)
    (scheme : Nat) (chunkSize : Int)
    (hS : chunkSize ≤ 0) (hC : 0 < r.contentLength)
    (hobj : (object.length : Int) = r.contentLength) :
    ∃ h : HashVal,
      (r.hashURL scheme chunkSize (compliantFetch object)).hashes = [some h] ∧
      (r.hashURL scheme chunkSize (compliantFetch object)).err = none ∧
      r.options.hashURL scheme (wholeBodyResponse object) = .ok h := by
  have hCnat : ((r.contentLength.toNat : Int)) = r.contentLength := Int.toNat_of_nonneg (le_of_lt hC)
  have hlenrep : (List.replicate r.contentLength.toNat (0:Byte)).length = r.contentLength.toNat :=
    List.length_replicate _ _
  have hobjlen : object.length = r.contentLength.toNat := by omega
  have hchunks : numChunks r.contentLength chunkSize = 1 := by
    simp only [numChunks, if_pos hS, if_neg (lt_irrefl r.contentLength)]
    exact ceilDivInt_self hC
  have hsize : effChunkSize r.contentLength chunkSize = r.contentLength := by
    simp only [effChunkSize, if_pos hS, if_neg (lt_irrefl r.contentLength)]
  have hread : r.readAt (List.replicate r.contentLength.toNat 0) 0 (compliantFetch object)
      = ⟨{ r with hasCancel := true }, object, r.contentLength, none⟩ := by
    simp only [ReadAtCloser.readAt, compliantFetch, rangeResponse, goCopy, hlenrep, hCnat]
    have ht : (0 + r.contentLength + 1).toNat = r.contentLength.toNat + 1 := by omega
    have htake : List.take ((0:Int) + r.contentLength + 1).toNat object = object :=
      List.take_of_length_le (by omega)
    simp only [if_neg (show ¬ ((206:Nat) ≠ 206) by decide), htake, Int.toNat_zero,
      List.drop_zero, if_neg (show ¬ (r.contentLength < 0 + r.contentLength) by omega)]
    have htkobj : List.take r.contentLength.toNat object = object :=
      List.take_of_length_le (by omega)
    have h2 : List.drop (object.length ⊓ r.contentLength.toNat)
        (List.replicate r.contentLength.toNat (0:Byte)) = [] := by
      simp [hobjlen]
    rw [htkobj, h2, List.append_nil, hobj, if_neg (lt_irrefl r.contentLength)]
  refine ⟨(if scheme = 32 then sha256SumReader else md5SumReader) object, ?_, ?_, ?_⟩
  · have hr1 : List.range 1 = [0] := rfl
    simp [ReadAtCloser.hashURL, hchunks, hsize, hr1, hashChunkGo, hread]
  · simp only [ReadAtCloser.hashURL, checkErrSlice_eq_none]
  · by_cases h32 : scheme = 32 <;>
      simp [h32, Options.hashURL, wholeBodyResponse]

/-- Claim C7 witness: MD5 over the whole 3-byte object with chunk size 0. -/
theorem c7_single_chunk_matches_sequential_witness :
    ((0:Int) ≤ 0) ∧ (0 < rEx3.contentLength) ∧ ((obj3.length : Int) = rEx3.contentLength) ∧
    (∃ h : HashVal,
      (rEx3.hashURL 16 0 (compliantFetch obj3)).hashes = [some h] ∧
      (rEx3.hashURL 16 0 (compliantFetch obj3)).err = none ∧
      rEx3.options.hashURL 16 (wholeBodyResponse obj3) = .ok h) :=
  ⟨le_refl 0, by decide, by decide,
    c7_single_chunk_matches_sequential rEx3 obj3 16 0 (by norm_num) (by decide) (by decide)⟩

/-- Claim C8 counterexample: with five chunks (content length 1000, chunk
size 200) there is a valid schedule of the chunk goroutines — all five enter
their network call before any completes — whose in-flight count reaches 5,
violating the claimed bound for any configured capacity `N = 2 < 5`.  The
code has no `maxConcurrentReaders` option and no admission gate, so nothing
rules this schedule out. -/
theorem c8_unbounded_concurrency_counterexample :
    numChunks 1000 200 = 5 ∧
    ValidTrace 5 trFive ∧
    inFlight (trFive.take 5) = 5 ∧
    ¬ inFlight (trFive.take 5) ≤ 2 := by
  refine ⟨by decide, by decide, by decide, by decide⟩

/-- Claim C8 as amended: the configuration has no concurrency-capacity field
and `HashURL` applies no admission control — each chunk goroutine issues its
network call directly — so for every chunk count there is a valid schedule
in which all chunk network calls are simultaneously in flight. -/
theorem c8_no_gate_all_chunks_in_flight (C S : Int) :
    ∃ tr : List NetEvent,
      ValidTrace (numChunks C S).toNat tr ∧
      ∃ m : Nat, inFlight (tr.take m) = (((numChunks C S).toNat : Nat) : Int) :=
  ⟨allStartsTrace (numChunks C S).toNat,
    allStartsTrace_valid _, (numChunks C S).toNat, inFlight_allStarts _⟩

/-- Claim C9: scheme selection has exactly two outcomes in both hashing
paths — SHA-256 when the scheme value is `sha256.Size = 32`, MD5 for every
other value (unrecognized sizes included): every digest a chunked `HashURL`
stores, and every digest the whole-body path returns, carries the algorithm
determined by that single test. -/
theorem c9_digest_scheme_selection (scheme : Nat) (r : ReadAtCloser) (chunkSize : Int)
    (fetch : RangeFetch) (get : GetFetch) :
    (∀ h : HashVal, some h ∈ (r.hashURL scheme chunkSize fetch).hashes →
        h.alg = (if scheme = 32 then HashAlg.sha256 else HashAlg.md5)) ∧
    (∀ h : HashVal, r.options.hashURL scheme get = .ok h →
        h.alg = (if scheme = 32 then HashAlg.sha256 else HashAlg.md5)) := by
  constructor
  · intro h hmem
    simp only [ReadAtCloser.hashURL, List.mem_map, List.mem_range] at hmem
    obtain ⟨oc, ⟨i, hi, hoc⟩, hhv⟩ := hmem
    subst hoc
    obtain ⟨bs, rfl⟩ := hashChunkGo_hashv _ _ _ _ _ _ hhv
    by_cases h32 : scheme = 32 <;> simp [h32, sha256SumReader, md5SumReader]
  · intro h hok
    unfold Options.hashURL at hok
    match get with
    | .error e => simp at hok
    | .ok res =>
      simp only at hok
      split at hok
      · simp at hok
      · split at hok
        · rw [if_pos (by assumption)]
          simp only [Except.ok.injEq] at hok
          rw [← hok]
          rfl
        · rw [if_neg (by assumption)]
          simp only [Except.ok.injEq] at hok
          rw [← hok]
          rfl

/-- Claim C9 witness: the unrecognized scheme value 20 selects MD5; the first
chunk digest of a two-chunk run over `[1,2,3,4]` is an MD5 digest of
`[1,2]`. -/
theorem c9_digest_scheme_selection_witness :
    some (⟨HashAlg.md5, [1, 2]⟩ : HashVal) ∈ (rEx4.hashURL 20 2 (compliantFetch obj4)).hashes ∧
    (⟨HashAlg.md5, [1, 2]⟩ : HashVal).alg = (if (20:Nat) = 32 then HashAlg.sha256 else HashAlg.md5) :=
  ⟨by decide,
    (c9_digest_scheme_selection 20 rEx4 2 (compliantFetch obj4) (wholeBodyResponse obj4)).1
      ⟨HashAlg.md5, [1, 2]⟩ (by decide)⟩

/-- Claim C10: no sequence of operations on a constructed reader changes its
`contentLength`, `etag`, or `options` fields — `ReadAt` writes only the
`cancel` slot, `HashURL` works on copies of the receiver, `Close` and the
accessors write nothing — so `Length()` and `Etag()` always return exactly
the construction-time probe values. -/
theorem c10_probe_fields_immutable (r : ReadAtCloser) (ops : List RacOp) :
    ((ops.foldl applyOp r).contentLength = r.contentLength ∧
     (ops.foldl applyOp r).etag = r.etag ∧
     (ops.foldl applyOp r).options = r.options) ∧
    (ops.foldl applyOp r).Length = r.Length ∧
    (ops.foldl applyOp r).Etag = r.Etag := by
  induction ops generalizing r with
  | nil => exact ⟨⟨rfl, rfl, rfl⟩, rfl, rfl⟩
  | cons op rest ih =>
    rw [List.foldl_cons]
    obtain ⟨⟨h1, h2, h3⟩, _, _⟩ := ih (applyOp r op)
    obtain ⟨g1, g2, g3⟩ := applyOp_frame r op
    exact ⟨⟨h1.trans g1, h2.trans g2, h3.trans g3⟩, h1.trans g1, h2.trans g2⟩
